import Mathlib

/-!
Shallow embedding of `patchwork/api/patch.py` (REST serializers for patches).

Python strings are embedded as `List Char`; the Python string operations
used by the source (`str.split` with and without a separator, `str.join`,
`str.lower`) are modelled over `List Char` with their exact CPython
semantics on the basic-latin range (which is the range the module's own
docstring restricts `State` names to).  The `State` table is embedded as a
`List State`; Django's `QuerySet.get(name__iexact=...)` is embedded as a
case-insensitive filter whose 0/1/many outcomes map to
`DoesNotExist` / a hit / `MultipleObjectsReturned`.
-/

/-- A Python string, embedded as its list of characters. -/
abbrev PyStr := List Char

/-- Character list of a Lean string literal (used to write concrete inputs). -/
def chrs (s : String) : PyStr := s.data

/-- Python `s.lower()` (basic-latin range, as `Char.toLower`). -/
def lowerStr (s : PyStr) : PyStr := s.map Char.toLower

/-- Python `sep.join(pieces)`. -/
def joinWith (sep : PyStr) : List PyStr → PyStr
  | [] => []
  | [x] => x
  | x :: y :: xs => x ++ sep ++ joinWith sep (y :: xs)

/-- Python `s.split('-')`: splits at every hyphen and keeps empty pieces
(`''.split('-') == ['']`, `'a--b'.split('-') == ['a', '', 'b']`). -/
def splitHyphen (s : PyStr) : List PyStr := s.splitOn '-'

/-- Python `s.split()` with no argument: splits on whitespace runs and
drops all empty pieces (so runs collapse and edges are discarded). -/
def splitWs (s : PyStr) : List PyStr :=
  (s.splitOnP (fun c => c.isWhitespace)).filter (· ≠ [])

/-- Source `format_state_name(state)`:
`return ' '.join(state.split('-'))` — hyphens become spaces. -/
def format_state_name (state : PyStr) : PyStr :=
  joinWith [' '] (splitHyphen state)

/-- A row of the external `State` table: a primary key and a `name`. -/
structure State where
  id : Nat
  name : PyStr
deriving DecidableEq, Repr

/-- Source `StateField.to_representation(obj)`:
`return '-'.join(obj.name.lower().split())`. -/
def to_representation (obj : State) : PyStr :=
  joinWith ['-'] (splitWs (lowerStr obj.name))

/-- A JSON-decoded Python value as DRF hands it to
`StateField.to_internal_value` (the shapes relevant to the claims). -/
inductive PyData where
  | str (s : PyStr)
  | int (n : Int)
  | bool (b : Bool)
  | pyNone
deriving DecidableEq, Repr

/-- Outcome of `StateField.to_internal_value`:
either a `State` row, a DRF `ValidationError` raised through `self.fail`
(`invalid_choice` with its `name`/`choices` payload, or `incorrect_type`),
or a Python exception that escapes the `try` uncaught
(`AttributeError` from calling `.split` on a non-string;
`MultipleObjectsReturned` from `QuerySet.get` hitting several rows). -/
inductive IVResult where
  | ok (s : State)
  | invalidChoice (name choices : PyStr)
  | incorrectType (dataType : PyStr)
  | attributeError
  | multipleObjectsReturned
deriving DecidableEq, Repr

/-- The list comprehension in the `invalid_choice` branch:
`[format_state_name(x.name) for x in self.get_queryset()]`. -/
def state_choices (db : List State) : List PyStr :=
  db.map (fun st => format_state_name st.name)

/-- Rows matched by `get(name__iexact=d)`: case-insensitive whole-string
comparison of `name` against `d`. -/
def iexact_matches (db : List State) (d : PyStr) : List State :=
  db.filter (fun st => lowerStr st.name == lowerStr d)

/-- Source `StateField.to_internal_value(data)` over queryset `db`.
The source rebinds `data = format_state_name(data)` before the lookup, so
both the lookup key and the `invalid_choice` payload's `name` use the
hyphen-to-space normalized form.  For a non-string input,
`format_state_name` calls `data.split('-')`, which raises
`AttributeError`; the source's `except` clauses catch only
`State.DoesNotExist` and `(TypeError, ValueError)`, so that exception
escapes (the `incorrect_type` branch is unreachable for JSON inputs). -/
def to_internal_value (db : List State) (data : PyData) : IVResult :=
  match data with
  | .str s =>
    match iexact_matches db (format_state_name s) with
    | [st] => .ok st
    | [] => .invalidChoice (format_state_name s)
        (joinWith (chrs ", ") (state_choices db))
    | _ => .multipleObjectsReturned
  | .int _ => .attributeError
  | .bool _ => .attributeError
  | .pyNone => .attributeError

/-- `PatchListSerializer.Meta.fields`, verbatim from the source. -/
def PatchListSerializer_fields : List String :=
  ["id", "url", "project", "msgid", "date", "name",
   "commit_ref", "pull_url", "state", "archived", "hash",
   "submitter", "delegate", "mbox", "series", "check", "checks",
   "tags"]

/-- `PatchListSerializer.Meta.read_only_fields`, verbatim from the source
(including the duplicated `'mbox'` entry). -/
def PatchListSerializer_read_only_fields : List String :=
  ["project", "msgid", "date", "name", "hash",
   "submitter", "mbox", "mbox", "series", "check",
   "checks", "tags"]

/-- `PatchDetailSerializer.Meta.fields = PatchListSerializer.Meta.fields
+ ('headers', 'content', 'diff')`. -/
def PatchDetailSerializer_fields : List String :=
  PatchListSerializer_fields ++ ["headers", "content", "diff"]

/-- `PatchDetailSerializer.Meta.read_only_fields`, extending the parent's
with `('headers', 'content', 'diff')`. -/
def PatchDetailSerializer_read_only_fields : List String :=
  PatchListSerializer_read_only_fields ++ ["headers", "content", "diff"]

/-- Fields declared on `PatchListSerializer` as `SerializerMethodField`
(`mbox`, `tags`, `check`, `checks`): read-only by the framework. -/
def method_fields : List String := ["mbox", "tags", "check", "checks"]

/-- Framework (DRF) semantics of the declarative `Meta`: a serialized
field accepts updates unless it is the primary key `id`, the identity
hyperlink `url`, a `SerializerMethodField`, or listed in
`Meta.read_only_fields`. -/
def writable_fields : List String :=
  PatchListSerializer_fields.filter
    (fun f => !(f == "id" || f == "url" || method_fields.contains f
      || PatchListSerializer_read_only_fields.contains f))

/-- A project tag (`x` in `instance.project.tags`): a display `name` and
the name `attr_name` of the per-patch counter attribute. -/
structure Tag where
  name : PyStr
  attr_name : PyStr
deriving DecidableEq, Repr

/-- The slice of the owning `Project` used here: its tag list. -/
structure Project where
  tags : List Tag
deriving DecidableEq, Repr

/-- The slice of a `Patch` row used by the serializer methods:
its project, its per-tag counter attributes (`getattr(instance, ·)`),
and the raw `headers` blob (`none` for SQL NULL; `some []` for an empty
string — both falsy in Python). -/
structure PatchRec where
  project : Project
  attrs : PyStr → Int
  headers : Option PyStr

/-- Source `PatchListSerializer.get_tags(instance)`:
`None` when `instance.project.tags` is empty (falsy), otherwise the dict
`{x.name: getattr(instance, x.attr_name) for x in instance.project.tags}`
(embedded as an association list in tag order). -/
def get_tags (inst : PatchRec) : Option (List (PyStr × Int)) :=
  if inst.project.tags ≠ [] then
    some (inst.project.tags.map (fun x => (x.name, inst.attrs x.attr_name)))
  else
    none

/-- Source `PatchDetailSerializer.get_headers(patch)`:
`if patch.headers: return email.parser.Parser().parsestr(patch.headers, True)`
— falls through to an implicit `None` when the blob is `None` or empty.
The external email-header parser is an abstract total function `parse`. -/
def get_headers {α : Type} (parse : PyStr → α) (patch : PatchRec) : Option α :=
  match patch.headers with
  | some s => if s ≠ [] then some (parse s) else none
  | none => none

/-- DRF `Serializer.to_representation`: one output pair per declared
field, in declaration order, with the field's rendered value. -/
def representation {α : Type} (fields : List String) (value : String → α) :
    List (String × α) :=
  fields.map (fun f => (f, value f))

/-- ORM update through the serializer on the PATCH/PUT path: the body can
assign at most the writable fields; every other field keeps its stored
value. -/
def patch_update {α : Type} (stored : String → α) (body : String → Option α) :
    String → α :=
  fun f => if f ∈ writable_fields then (body f).getD (stored f) else stored f

/-- Claim-side predicate: a character is a (basic-latin) letter, digit or
underscore — the alphabet the class docstring restricts state names to. -/
def isNameChar (c : Char) : Bool :=
  decide ((48 ≤ c.toNat ∧ c.toNat ≤ 57) ∨ (65 ≤ c.toNat ∧ c.toNat ≤ 90)
    ∨ (97 ≤ c.toNat ∧ c.toNat ≤ 122) ∨ c.toNat = 95)

/-- Claim-side predicate: a `State` name made of letters, digits and
underscores, with single internal spaces — i.e. nonempty such words
joined by single spaces. -/
def validStateName (n : PyStr) : Prop :=
  ∃ ws : List PyStr, n = joinWith [' '] ws ∧
    ∀ w ∈ ws, w ≠ [] ∧ ∀ c ∈ w, isNameChar c = true

/-- Spec-side refinement of `to_representation` (its words, not the
code): the name lowercased with each space replaced by a hyphen. -/
def spec_lower_hyphenated (n : PyStr) : PyStr :=
  (lowerStr n).map (fun c => if c = ' ' then '-' else c)

/-- A two-row `State` table used for concrete witnesses. -/
def stdDb : List State := [⟨1, chrs "New"⟩, ⟨2, chrs "Under Review"⟩]

/-- Characters with equal code points are equal. -/
theorem char_toNat_inj {c d : Char} (h : c.toNat = d.toNat) : c = d :=
  Char.ext (UInt32.eq_of_toBitVec_eq (BitVec.eq_of_toNat_eq h))

/-- Code point of `Char.ofNat` below the surrogate range. -/
theorem char_toNat_ofNat_valid {n : Nat} (h : n < 55296) : (Char.ofNat n).toNat = n := by
  have hv : n.isValidChar := Or.inl h
  rw [Char.ofNat, dif_pos hv]
  simp [Char.ofNatAux, Char.toNat, UInt32.toNat]

/-- Code point of `Char.toLower`: shifted by 32 on `A`-`Z`, unchanged elsewhere. -/
theorem toLower_toNat (c : Char) :
    (c.toLower).toNat = if 65 ≤ c.toNat ∧ c.toNat ≤ 90 then c.toNat + 32 else c.toNat := by
  simp only [Char.toLower]
  by_cases h : 65 ≤ c.toNat ∧ c.toNat ≤ 90
  · rw [if_pos ⟨h.1, h.2⟩, if_pos h]
    exact char_toNat_ofNat_valid (by omega)
  · rw [if_neg (by exact h), if_neg h]

/-- Whitespace characters by code point (space, tab, CR, LF). -/
theorem isWhitespace_iff (c : Char) :
    c.isWhitespace = true ↔ (c.toNat = 32 ∨ c.toNat = 9 ∨ c.toNat = 13 ∨ c.toNat = 10) := by
  constructor
  · intro h
    simp only [Char.isWhitespace, Bool.or_eq_true, decide_eq_true_eq] at h
    rcases h with ((h | h) | h) | h <;> subst h <;> simp
  · intro h
    rcases h with h | h | h | h
    · have : c = ' ' := char_toNat_inj (h.trans (by decide))
      subst this; decide
    · have : c = '\t' := char_toNat_inj (h.trans (by decide))
      subst this; decide
    · have : c = '\r' := char_toNat_inj (h.trans (by decide))
      subst this; decide
    · have : c = '\n' := char_toNat_inj (h.trans (by decide))
      subst this; decide

/-- Lowercasing fixes whitespace characters. -/
theorem toLower_of_isWhitespace {c : Char} (h : c.isWhitespace = true) : c.toLower = c := by
  apply char_toNat_inj
  rw [toLower_toNat]
  rcases (isWhitespace_iff c).1 h with h' | h' | h' | h' <;> rw [if_neg (by omega)]

/-- `Char.toLower` is idempotent. -/
theorem toLower_toLower (c : Char) : (c.toLower).toLower = c.toLower := by
  apply char_toNat_inj
  rw [toLower_toNat, toLower_toNat]
  split_ifs <;> omega

/-- A lowercased name character is not whitespace. -/
theorem nameChar_toLower_not_ws {c : Char} (h : isNameChar c = true) :
    (c.toLower).isWhitespace = false := by
  simp only [isNameChar, decide_eq_true_eq] at h
  rw [Bool.eq_false_iff]
  intro hw
  have ht := toLower_toNat c
  rcases (isWhitespace_iff _).1 hw with h' | h' | h' | h' <;>
    rw [h'] at ht <;> split_ifs at ht <;> omega

/-- A lowercased name character is not a hyphen. -/
theorem nameChar_toLower_ne_hyphen {c : Char} (h : isNameChar c = true) :
    c.toLower ≠ '-' := by
  simp only [isNameChar, decide_eq_true_eq] at h
  intro he
  have ht : (c.toLower).toNat = 45 := by rw [he]; decide
  rw [toLower_toNat] at ht
  split_ifs at ht <;> omega

/-- A lowercased name character is not a space. -/
theorem nameChar_toLower_ne_space {c : Char} (h : isNameChar c = true) :
    c.toLower ≠ ' ' := by
  intro he
  have := nameChar_toLower_not_ws h
  rw [he] at this
  exact absurd this (by decide)

/-- `modifyHead` only touches the left part of an append when it is nonempty. -/
theorem modifyHead_append_left {α : Type} (f : α → α) (a b : List α) (ha : a ≠ []) :
    (a ++ b).modifyHead f = a.modifyHead f ++ b := by
  cases a with
  | nil => exact absurd rfl ha
  | cons x xs => simp

/-- Splitting an append around a separator splits each side independently. -/
theorem splitOnP_append_sep (p : Char → Bool) (c : Char) (hc : p c = true) :
    ∀ a z : PyStr, (a ++ c :: z).splitOnP p = a.splitOnP p ++ z.splitOnP p
  | [], z => by simp [List.splitOnP_cons, hc]
  | x :: a', z => by
    by_cases hx : p x
    · simp only [List.cons_append, List.splitOnP_cons, hx, if_pos,
        splitOnP_append_sep p c hc a' z]
    · simp only [List.cons_append, List.splitOnP_cons, hx, if_neg, Bool.false_eq_true,
        ite_false, splitOnP_append_sep p c hc a' z]
      rw [modifyHead_append_left _ _ _ (List.splitOnP_ne_nil p a')]

/-- Whitespace splitting of the empty string yields no words. -/
theorem splitWs_nil : splitWs [] = [] := rfl

/-- Whitespace splitting distributes over an append around a whitespace
character (Python split-with-no-argument drops the empty pieces). -/
theorem splitWs_append_sep {c : Char} (hc : c.isWhitespace = true) (a z : PyStr) :
    splitWs (a ++ c :: z) = splitWs a ++ splitWs z := by
  unfold splitWs
  rw [splitOnP_append_sep _ c (by exact hc), List.filter_append]

/-- A leading whitespace character does not change the word list. -/
theorem splitWs_cons_ws {c : Char} (hc : c.isWhitespace = true) (n : PyStr) :
    splitWs (c :: n) = splitWs n := by
  have := splitWs_append_sep hc [] n
  simpa using this

/-- Splitting the `sep`-join of `sep`-free pieces recovers the pieces. -/
theorem splitOnP_joinWith (p : Char → Bool) (sep : Char) (hsep : p sep = true) :
    ∀ ws : List PyStr, ws ≠ [] → (∀ w ∈ ws, ∀ ch ∈ w, p ch = false) →
      (joinWith [sep] ws).splitOnP p = ws
  | [], h, _ => absurd rfl h
  | [w], _, hw => by
    simp only [joinWith]
    exact List.splitOnP_eq_single _ _ (fun x hx => by simp [hw w (by simp) x hx])
  | w :: w' :: rest, _, hw => by
    have hjoin : joinWith [sep] (w :: w' :: rest) = w ++ sep :: joinWith [sep] (w' :: rest) := by
      simp [joinWith]
    rw [hjoin,
      List.splitOnP_first _ _ (fun x hx => by simp [hw w (by simp) x hx]) sep hsep,
      splitOnP_joinWith p sep hsep (w' :: rest) (by simp)
        (fun v hv => hw v (List.mem_cons_of_mem w hv))]

/-- Python `' '.join(words).split()` recovers nonempty whitespace-free words. -/
theorem splitWs_joinWith (ws : List PyStr) (hne : ∀ w ∈ ws, w ≠ [])
    (hnws : ∀ w ∈ ws, ∀ ch ∈ w, ch.isWhitespace = false) :
    splitWs (joinWith [' '] ws) = ws := by
  cases ws with
  | nil => rfl
  | cons w ws' =>
    unfold splitWs
    rw [splitOnP_joinWith _ ' ' (by decide) (w :: ws') (by simp) hnws]
    exact List.filter_eq_self.mpr (fun a ha => by simpa using hne a ha)

/-- `format_state_name` undoes the hyphen-join of hyphen-free pieces. -/
theorem format_joinWith (vs : List PyStr) (hv : ∀ v ∈ vs, ∀ ch ∈ v, ch ≠ '-') :
    format_state_name (joinWith ['-'] vs) = joinWith [' '] vs := by
  cases vs with
  | nil => rfl
  | cons v vs' =>
    unfold format_state_name splitHyphen
    rw [List.splitOn,
      splitOnP_joinWith _ '-' (by decide) (v :: vs') (by simp)
        (fun w hw ch hch => by simpa using hv w hw ch hch)]

/-- A character map distributes over `joinWith`. -/
theorem map_joinWith (f : Char → Char) (sep : PyStr) :
    ∀ l : List PyStr, (joinWith sep l).map f = joinWith (sep.map f) (l.map (List.map f))
  | [] => rfl
  | [x] => rfl
  | x :: y :: xs => by
    simp only [joinWith, List.map_append]
    rw [map_joinWith f sep (y :: xs)]
    simp [joinWith]

/-- Lowercasing distributes over append. -/
theorem lowerStr_append (a b : PyStr) : lowerStr (a ++ b) = lowerStr a ++ lowerStr b :=
  List.map_append _ a b

/-- Lowercasing distributes over a space-join. -/
theorem lowerStr_joinWith (l : List PyStr) :
    lowerStr (joinWith [' '] l) = joinWith [' '] (l.map lowerStr) := by
  have h := map_joinWith Char.toLower [' '] l
  simpa [lowerStr] using h

/-- Python `lower` is idempotent on strings. -/
theorem lowerStr_idem (s : PyStr) : lowerStr (lowerStr s) = lowerStr s := by
  unfold lowerStr
  rw [List.map_map]
  exact List.map_congr_left (fun c _ => by simp [Function.comp, toLower_toLower])

/-- A filter whose only possible hit in a duplicate-free list is `a`
returns exactly `[a]` (the `QuerySet.get` success case). -/
theorem filter_eq_singleton {α : Type} (p : α → Bool) :
    ∀ (l : List α) (a : α), l.Nodup → a ∈ l → p a = true →
      (∀ b ∈ l, p b = true → b = a) → l.filter p = [a]
  | [], a, _, ha, _, _ => absurd ha (by simp)
  | x :: l', a, hnd, ha, hpa, huniq => by
    rcases List.mem_cons.mp ha with rfl | hmem
    · rw [List.filter_cons_of_pos hpa]
      have htail : l'.filter p = [] := by
        rw [List.filter_eq_nil_iff]
        intro b hb hpb
        exact (List.nodup_cons.mp hnd).1 ((huniq b (List.mem_cons_of_mem _ hb) hpb) ▸ hb)
      rw [htail]
    · have hx : p x = false := by
        cases hpx : p x with
        | false => rfl
        | true =>
          have : x = a := huniq x (List.mem_cons_self x l') hpx
          exact absurd (this ▸ hmem) (List.nodup_cons.mp hnd).1
      rw [List.filter_cons_of_neg (by simp [hx])]
      exact filter_eq_singleton p l' a (List.nodup_cons.mp hnd).2 hmem hpa
        (fun b hb hpb => huniq b (List.mem_cons_of_mem _ hb) hpb)

/-- `to_representation` of a valid name is the hyphen-join of its
lowercased words. -/
theorem repr_joinWith (i : Nat) (ws : List PyStr)
    (hws : ∀ w ∈ ws, w ≠ [] ∧ ∀ c ∈ w, isNameChar c = true) :
    to_representation ⟨i, joinWith [' '] ws⟩ = joinWith ['-'] (ws.map lowerStr) := by
  unfold to_representation
  simp only
  rw [lowerStr_joinWith,
    splitWs_joinWith (ws.map lowerStr)
      (fun w hw => by
        obtain ⟨v, hv, rfl⟩ := List.mem_map.mp hw
        simpa [lowerStr] using (hws v hv).1)
      (fun w hw ch hch => by
        obtain ⟨v, hv, rfl⟩ := List.mem_map.mp hw
        obtain ⟨c, hc, rfl⟩ := List.mem_map.mp hch
        exact nameChar_toLower_not_ws ((hws v hv).2 c hc))]

/-- On a no-match lookup, `to_internal_value` raises `invalid_choice`
with the normalized input and the space-formatted names of all states. -/
theorem iv_no_match (db : List State) (inp : PyStr)
    (hno : ∀ t ∈ db, lowerStr t.name ≠ lowerStr (format_state_name inp)) :
    to_internal_value db (.str inp) =
      .invalidChoice (format_state_name inp) (joinWith (chrs ", ") (state_choices db)) := by
  have hm : iexact_matches db (format_state_name inp) = [] := by
    unfold iexact_matches
    rw [List.filter_eq_nil_iff]
    intro st hst hbeq
    exact hno st hst (by simpa using hbeq)
  simp only [to_internal_value]
  rw [hm]

/-- C1: for every `State` record whose name contains only letters, digits,
underscores and single spaces, `to_representation` followed by
`to_internal_value` recovers the same record, provided the table has no
duplicate rows and the name's case-insensitive form is unique in it
(which is what makes the `get(name__iexact=...)` lookup well-defined). -/
theorem state_roundtrip (db : List State) (s : State) (hnd : db.Nodup) (hs : s ∈ db)
    (hv : validStateName s.name)
    (huniq : ∀ t ∈ db, lowerStr t.name = lowerStr s.name → t = s) :
    to_internal_value db (.str (to_representation s)) = .ok s := by
  obtain ⟨ws, hname, hws⟩ := hv
  have hrepr : to_representation s = joinWith ['-'] (ws.map lowerStr) := by
    have h := repr_joinWith s.id ws hws
    rw [← hname] at h
    exact h
  have hfmt : format_state_name (to_representation s) = joinWith [' '] (ws.map lowerStr) := by
    rw [hrepr]
    exact format_joinWith (ws.map lowerStr) (fun v hv' ch hch => by
      obtain ⟨v0, hv0, rfl⟩ := List.mem_map.mp hv'
      obtain ⟨c, hc, rfl⟩ := List.mem_map.mp hch
      exact nameChar_toLower_ne_hyphen ((hws v0 hv0).2 c hc))
  have hmap2 : (ws.map lowerStr).map lowerStr = ws.map lowerStr := by
    rw [List.map_map]
    exact List.map_congr_left (fun w _ => by simp [Function.comp, lowerStr_idem])
  have hkey : lowerStr (format_state_name (to_representation s)) = lowerStr s.name := by
    rw [hfmt, hname, lowerStr_joinWith, lowerStr_joinWith, hmap2]
  have hmatch : iexact_matches db (format_state_name (to_representation s)) = [s] := by
    unfold iexact_matches
    apply filter_eq_singleton _ db s hnd hs
    · simp [hkey]
    · intro b hb hpb
      have hb' : lowerStr b.name = lowerStr (format_state_name (to_representation s)) := by
        simpa using hpb
      exact huniq b hb (hb'.trans hkey)
  simp only [to_internal_value]
  rw [hmatch]

/-- C1 witness: the round trip at the concrete record `"Under Review"`
in a two-row table. -/
theorem state_roundtrip_witness :
    to_internal_value stdDb (.str (to_representation ⟨2, chrs "Under Review"⟩)) =
      .ok ⟨2, chrs "Under Review"⟩ :=
  state_roundtrip stdDb ⟨2, chrs "Under Review"⟩ (by decide) (by decide)
    ⟨[chrs "Under", chrs "Review"], by decide, by decide⟩ (by decide)

/-- C6: on a valid record (letters, digits, underscores, single spaces —
the names the class docstring admits), `to_representation` returns the
name lowercased with each space replaced by a hyphen; the function is
total, so it has no failure path. -/
theorem repr_is_lower_hyphenated (i : Nat) (n : PyStr) (hv : validStateName n) :
    to_representation ⟨i, n⟩ = spec_lower_hyphenated n := by
  obtain ⟨ws, rfl, hws⟩ := hv
  rw [repr_joinWith i ws hws]
  unfold spec_lower_hyphenated
  rw [lowerStr_joinWith ws,
    map_joinWith (fun c => if c = ' ' then '-' else c) [' '] (ws.map lowerStr)]
  have h1 : [' '].map (fun c => if c = ' ' then '-' else c) = ['-'] := by decide
  rw [h1]
  congr 1
  rw [List.map_map]
  symm
  apply List.map_congr_left
  intro w hw
  have h2 : ∀ ch ∈ lowerStr w, (if ch = ' ' then '-' else ch) = ch := by
    intro ch hch
    obtain ⟨c, hc, rfl⟩ := List.mem_map.mp hch
    rw [if_neg (nameChar_toLower_ne_space ((hws w hw).2 c hc))]
  calc (List.map (fun c => if c = ' ' then '-' else c) ∘ lowerStr) w
      = (lowerStr w).map (fun c => if c = ' ' then '-' else c) := rfl
    _ = (lowerStr w).map id := List.map_congr_left (fun ch hch => h2 ch hch)
    _ = lowerStr w := List.map_id _

/-- C6 witness: the concrete record `"Under Review"`. -/
theorem repr_is_lower_hyphenated_witness :
    to_representation ⟨1, chrs "Under Review"⟩ = spec_lower_hyphenated (chrs "Under Review") :=
  repr_is_lower_hyphenated 1 (chrs "Under Review")
    ⟨[chrs "Under", chrs "Review"], by decide, by decide⟩

/-- C10: `to_representation` drops leading and trailing whitespace and
collapses each whitespace run to a single separator, so distinct names
can share one slug (witnessed by `" Under  Review "` vs `"Under Review"`). -/
theorem repr_collapses_whitespace :
    (∀ (i : Nat) (c : Char) (n : PyStr), c.isWhitespace = true →
        to_representation ⟨i, c :: n⟩ = to_representation ⟨i, n⟩) ∧
    (∀ (i : Nat) (c : Char) (n : PyStr), c.isWhitespace = true →
        to_representation ⟨i, n ++ [c]⟩ = to_representation ⟨i, n⟩) ∧
    (∀ (i : Nat) (c c' : Char) (a b : PyStr), c.isWhitespace = true → c'.isWhitespace = true →
        to_representation ⟨i, a ++ c :: c' :: b⟩ = to_representation ⟨i, a ++ c :: b⟩) ∧
    (chrs " Under  Review " ≠ chrs "Under Review" ∧
      to_representation ⟨1, chrs " Under  Review "⟩ = to_representation ⟨2, chrs "Under Review"⟩) := by
  refine ⟨?_, ?_, ?_, by decide, by decide⟩
  · intro i c n hc
    unfold to_representation
    simp only
    have hl : lowerStr (c :: n) = c :: lowerStr n := by
      simp [lowerStr, toLower_of_isWhitespace hc]
    rw [hl, splitWs_cons_ws hc]
  · intro i c n hc
    unfold to_representation
    simp only
    have hl : lowerStr (n ++ [c]) = lowerStr n ++ c :: [] := by
      simp [lowerStr, toLower_of_isWhitespace hc]
    rw [hl, splitWs_append_sep hc, splitWs_nil, List.append_nil]
  · intro i c c' a b hc hc'
    unfold to_representation
    simp only
    have h1 : lowerStr (a ++ c :: c' :: b) = lowerStr a ++ c :: (c' :: lowerStr b) := by
      simp [lowerStr, toLower_of_isWhitespace hc, toLower_of_isWhitespace hc']
    have h2 : lowerStr (a ++ c :: b) = lowerStr a ++ c :: lowerStr b := by
      simp [lowerStr, toLower_of_isWhitespace hc]
    rw [h1, h2, splitWs_append_sep hc, splitWs_append_sep hc, splitWs_cons_ws hc']

/-- C10 witness: a leading space does not change the slug. -/
theorem repr_collapses_whitespace_witness :
    to_representation ⟨1, ' ' :: chrs "new"⟩ = to_representation ⟨1, chrs "new"⟩ :=
  repr_collapses_whitespace.1 1 ' ' (chrs "new") (by decide)

/-- C2 counterexample: on input `"does-not-exist"` against a table whose
rows are named `"New"` and `"Under Review"`, the `invalid_choice` error
lists `"New, Under Review"` — the space-formatted names — whereas the
hyphen-formatted slug list would be `"new, under-review"`. -/
theorem invalid_choice_not_slugs_cex :
    to_internal_value stdDb (.str (chrs "does-not-exist")) =
      .invalidChoice (chrs "does not exist") (chrs "New, Under Review") ∧
    joinWith (chrs ", ") (stdDb.map to_representation) = chrs "new, under-review" ∧
    chrs "New, Under Review" ≠ chrs "new, under-review" := by
  refine ⟨by decide, by decide, by decide⟩

/-- C2 (amended): on a string with no case-insensitive match the lookup
fails with `invalid_choice`; the error's choice list has one entry per
existing `State` row, each entry being `format_state_name` of the row's
name (hyphens replaced by spaces), not the hyphenated slug. -/
theorem invalid_choice_choices (db : List State) (inp : PyStr)
    (hno : ∀ t ∈ db, lowerStr t.name ≠ lowerStr (format_state_name inp)) :
    to_internal_value db (.str inp) =
      .invalidChoice (format_state_name inp) (joinWith (chrs ", ") (state_choices db)) ∧
    (state_choices db).length = db.length := by
  exact ⟨iv_no_match db inp hno, by simp [state_choices]⟩

/-- C2 witness: the amended statement at `"does-not-exist"` over the
two-row table. -/
theorem invalid_choice_choices_witness :
    to_internal_value stdDb (.str (chrs "does-not-exist")) =
      .invalidChoice (format_state_name (chrs "does-not-exist"))
        (joinWith (chrs ", ") (state_choices stdDb)) ∧
    (state_choices stdDb).length = stdDb.length :=
  invalid_choice_choices stdDb (chrs "does-not-exist") (by decide)

/-- C3: on the integer input `123`, `to_internal_value` neither fails
with `incorrect_type` nor returns a `State`: `format_state_name` calls
`data.split('-')` on an `int`, which raises `AttributeError`, and the
`except (TypeError, ValueError)` clause guarding the `incorrect_type`
failure does not catch it, so the exception escapes. -/
theorem int_input_attribute_error (db : List State) :
    to_internal_value db (.int 123) = .attributeError ∧
    ∀ t : PyStr, to_internal_value db (.int 123) ≠ .incorrectType t :=
  ⟨rfl, fun _ h => IVResult.noConfusion h⟩

/-- C4 counterexample: `'name'` is listed in
`PatchListSerializer.Meta.read_only_fields`, so it is not mutable via
update, contradicting the claimed writable set. -/
theorem name_field_not_writable_cex :
    "name" ∈ PatchListSerializer_read_only_fields ∧ "name" ∉ writable_fields := by
  refine ⟨by decide, by decide⟩

/-- C4 (amended): the fields mutable via update are exactly
`commit_ref`, `pull_url`, `state`, `archived` and `delegate` (`name` is
read-only); every field outside this set keeps its stored value. -/
theorem writable_fields_exactly :
    writable_fields = ["commit_ref", "pull_url", "state", "archived", "delegate"] ∧
    ∀ (stored : String → Int) (body : String → Option Int) (f : String),
      f ∉ writable_fields → patch_update stored body f = stored f := by
  refine ⟨by decide, ?_⟩
  intro stored body f hf
  unfold patch_update
  rw [if_neg hf]

/-- C4 witness: an update leaves the read-only `msgid` field unchanged. -/
theorem writable_fields_exactly_witness :
    patch_update (fun _ => (0 : Int)) (fun _ => some 1) "msgid" = 0 :=
  writable_fields_exactly.2 (fun _ => (0 : Int)) (fun _ => some 1) "msgid" (by decide)

/-- C5 counterexample: for input `"does-not-exist"` the error payload's
`name` is the normalized `"does not exist"`, not the original string. -/
theorem invalid_choice_name_cex :
    to_internal_value stdDb (.str (chrs "does-not-exist")) =
      .invalidChoice (chrs "does not exist") (chrs "New, Under Review") ∧
    chrs "does not exist" ≠ chrs "does-not-exist" := by
  refine ⟨by decide, by decide⟩

/-- C5 (amended): when `to_internal_value` fails with `invalid_choice`,
the payload's `name` is the hyphen-to-space normalization
`format_state_name(input)` of the offending input (the source rebinds
`data` before the lookup), not necessarily the caller's original string. -/
theorem invalid_choice_name_normalized (db : List State) (inp : PyStr)
    (hno : ∀ t ∈ db, lowerStr t.name ≠ lowerStr (format_state_name inp)) :
    ∃ ch : PyStr, to_internal_value db (.str inp) =
      .invalidChoice (format_state_name inp) ch :=
  ⟨joinWith (chrs ", ") (state_choices db), iv_no_match db inp hno⟩

/-- C5 witness: the amended statement at `"does-not-exist"`. -/
theorem invalid_choice_name_normalized_witness :
    ∃ ch : PyStr, to_internal_value stdDb (.str (chrs "does-not-exist")) =
      .invalidChoice (format_state_name (chrs "does-not-exist")) ch :=
  invalid_choice_name_normalized stdDb (chrs "does-not-exist") (by decide)

/-- C7: `get_tags` yields `None` exactly when the owning project defines
no tags, and otherwise the mapping from each project tag's name to the
value of that tag's counter attribute on the patch. -/
theorem get_tags_spec (inst : PatchRec) :
    (inst.project.tags = [] → get_tags inst = none) ∧
    (inst.project.tags ≠ [] →
      get_tags inst = some (inst.project.tags.map (fun x => (x.name, inst.attrs x.attr_name)))) := by
  constructor <;> intro h <;> simp [get_tags, h]

/-- A concrete patch whose project defines one tag `"reviewed"` counted
by the attribute `"tag_reviewed"`, valued 7 on this patch. -/
def tagPatch : PatchRec :=
  ⟨⟨[⟨chrs "reviewed", chrs "tag_reviewed"⟩]⟩,
    fun a => if a = chrs "tag_reviewed" then 7 else 0, none⟩

/-- C7 witness: the tagged patch serializes `tags` as
`{"reviewed": 7}`. -/
theorem get_tags_spec_witness : get_tags tagPatch = some [(chrs "reviewed", 7)] := by
  have h := (get_tags_spec tagPatch).2 (by simp [tagPatch])
  rw [h]
  simp [tagPatch]

/-- C8: the list representation never carries the `headers`, `content`
or `diff` keys; the detail representation always carries all three. -/
theorem list_detail_field_keys {α : Type} (value : String → α) :
    ("headers" ∉ (representation PatchListSerializer_fields value).map Prod.fst ∧
     "content" ∉ (representation PatchListSerializer_fields value).map Prod.fst ∧
     "diff" ∉ (representation PatchListSerializer_fields value).map Prod.fst) ∧
    ("headers" ∈ (representation PatchDetailSerializer_fields value).map Prod.fst ∧
     "content" ∈ (representation PatchDetailSerializer_fields value).map Prod.fst ∧
     "diff" ∈ (representation PatchDetailSerializer_fields value).map Prod.fst) := by
  have hkeys : ∀ fs : List String, (representation fs value).map Prod.fst = fs := by
    intro fs
    simp only [representation, List.map_map, Function.comp]
    exact List.map_id fs
  rw [hkeys PatchListSerializer_fields, hkeys PatchDetailSerializer_fields]
  refine ⟨⟨by decide, by decide, by decide⟩, ⟨by decide, by decide, by decide⟩⟩

/-- C9: when the stored headers blob is absent (`None`) or empty,
`get_headers` returns `None` without invoking the parser (no raise). -/
theorem get_headers_empty_none {α : Type} (parse : PyStr → α) (p : PatchRec)
    (h : p.headers = none ∨ p.headers = some []) :
    get_headers parse p = none := by
  rcases h with h | h <;> simp [get_headers, h]

/-- A concrete patch with no stored headers blob. -/
def noHeadersPatch : PatchRec := ⟨⟨[]⟩, fun _ => 0, none⟩

/-- C9 witness: `get_headers` on the blob-less patch is `None`. -/
theorem get_headers_empty_none_witness :
    get_headers (fun s => s) noHeadersPatch = none :=
  get_headers_empty_none (fun s => s) noHeadersPatch (Or.inl rfl)
